import Mathlib

/-!
Verification of the incremental streaming markdown renderer
(`src/highlight.rs` and `src/writer.rs`).

Strings are modelled as lists of bytes (`List Nat`); a byte value of 10
is the line terminator. The tree-sitter markdown parser is an external
library; the parts of its behaviour that the renderer relies on
(well-formed parse trees, append-stability of the tag lists) are
modelled from the specification and taken as hypotheses, clearly marked
below. Everything else is translated directly from the Rust source.
-/

set_option maxHeartbeats 1000000

/-- The six tag kinds of `highlight.rs` (`enum TagKind`). -/
inductive TagKind : Type where
  | CodeBegin
  | CodeEnd
  | HeadingBegin
  | HeadingEnd
  | StrongBegin
  | StrongEnd
deriving DecidableEq, Repr

/-- `struct Tag { kind, position }` from `highlight.rs`. -/
structure Tag where
  kind : TagKind
  position : Nat
deriving DecidableEq, Repr

/-- `"\x1b[1m"` as bytes. -/
def STYLE_BOLD : List Nat := [27, 91, 49, 109]

/-- `"\x1b[49m"` as bytes. -/
def STYLE_DEFAULT_BG : List Nat := [27, 91, 52, 57, 109]

/-- `"\x1b[39m"` as bytes. -/
def STYLE_DEFAULT_FG : List Nat := [27, 91, 51, 57, 109]

/-- `"\x1b[100m"` as bytes. -/
def STYLE_GRAY_BG : List Nat := [27, 91, 49, 48, 48, 109]

/-- `"\x1b[22m"` as bytes. -/
def STYLE_REGULAR : List Nat := [27, 91, 50, 50, 109]

/-- `"\x1b[33m"` as bytes. -/
def STYLE_YELLOW_FG : List Nat := [27, 91, 51, 51, 109]

/-- The `match tag.kind` table in `highlight_markdown` (highlight.rs lines 42-49). -/
def styleBytes : TagKind → List Nat
  | .CodeBegin => STYLE_GRAY_BG
  | .CodeEnd => STYLE_DEFAULT_BG
  | .HeadingBegin => STYLE_YELLOW_FG
  | .HeadingEnd => STYLE_DEFAULT_FG
  | .StrongBegin => STYLE_BOLD
  | .StrongEnd => STYLE_REGULAR

/-- `&l[a..b]` as a total clamping operation on byte lists. -/
def listSlice (l : List Nat) (a b : Nat) : List Nat :=
  (l.drop a).take (b - a)

/-- The accumulation loop of `highlight_markdown` (highlight.rs lines 38-53):
for each tag, push the source bytes from the running position up to the tag
position, then the style code; finally push the rest of the source.
Rust's slicing panics on a reversed range, but `find_tags` sorts the tags,
so on sorted tags this clamping total model coincides with the source. -/
def highlightFrom (source : List Nat) : List Tag → Nat → List Nat
  | [], position => source.drop position
  | tag :: rest, position =>
      listSlice source position tag.position ++ styleBytes tag.kind ++
        highlightFrom source rest tag.position

/-- `highlight_markdown` applied to an already-computed tag list. -/
def highlightBytes (tags : List Tag) (source : List Nat) : List Nat :=
  highlightFrom source tags 0

/-- The pure part of `highlight_markdown`: the composition of a tagger
(parser + `find_tags`, abstracted as `g`) with the styled-string build. -/
def highlight_markdown (g : List Nat → List Tag) (source : List Nat) : List Nat :=
  highlightBytes (g source) source

/-- The single failure of `highlight_markdown` (highlight.rs lines 33-36):
`MarkdownParser::parse` returns `None` only on parser-initialization
failure, reported via `context("Could not parse Markdown")`. -/
inductive ParseFailure : Type where
  | ParseUnavailable
deriving DecidableEq

/-- Modelled from the spec: `highlight_markdown` as a fallible function.
The parser itself is an external library; per the spec its only failure
mode is parser unavailability (resource exhaustion), independent of the
input text, modelled by the `parserAvailable` flag. -/
def highlight_markdown_result (parserAvailable : Bool) (g : List Nat → List Tag)
    (source : List Nat) : Except ParseFailure (List Nat) :=
  if parserAvailable then Except.ok (highlight_markdown g source)
  else Except.error ParseFailure.ParseUnavailable

/-- `token.ends_with('\n')`: the last byte is 10. -/
def endsNL (l : List Nat) : Bool :=
  l.getLast? == some 10

/-- `str::rfind('\n')`: byte index of the last newline, if any. -/
def lastNL : List Nat → Option Nat
  | [] => none
  | b :: t =>
      match lastNL t with
      | some k => some (k + 1)
      | none => if b = 10 then some 0 else none

/-- Rust's `str::is_char_boundary` on a UTF-8 byte list: index 0 and the
length are boundaries, an in-range index is a boundary iff the byte there
is not a UTF-8 continuation byte, and an out-of-range index is not. -/
def isCharBoundary (s : List Nat) (i : Nat) : Bool :=
  if i = 0 then true
  else if i = s.length then true
  else if i < s.length then
    decide (s.getD i 0 < 128) || decide (192 ≤ s.getD i 0)
  else false

/-- Rust string slicing `&s[a..b]`: `some` slice when the range is
ordered, in bounds and on character boundaries; `none` models the panic. -/
def strSlice (s : List Nat) (a b : Nat) : Option (List Nat) :=
  if a ≤ b ∧ b ≤ s.length ∧ isCharBoundary s a = true ∧ isCharBoundary s b = true
  then some (listSlice s a b) else none

/-- The index used by `highlight_and_write`'s non-final branch: the last
newline of `highlighted` with its final byte excluded from the search
(writer.rs line 52). -/
def cutIdx (h : List Nat) : Option Nat :=
  lastNL (listSlice h 0 (h.length - 1))

/-- `struct StreamWriter` (writer.rs lines 7-12). The `stdout` sink is
modelled by returning the emitted bytes from each operation. -/
structure StreamWriter where
  original : List Nat
  highlighted : List Nat
  written : Nat
deriving DecidableEq, Repr

/-- `StreamWriter::new`. -/
def StreamWriter.new : StreamWriter :=
  { original := [], highlighted := [], written := 0 }

/-- `StreamWriter::highlight_and_write` (writer.rs lines 45-61),
parameterized by the tagger `g`. Returns `none` where the Rust code
panics (an out-of-range or non-boundary slice index); otherwise returns
the updated state and the bytes written to the sink. -/
def highlight_and_write (g : List Nat → List Tag) (untilEnd : Bool)
    (st : StreamWriter) : Option (StreamWriter × List Nat) :=
  let h := highlight_markdown g st.original
  if untilEnd then
    match strSlice h st.written h.length with
    | none => none
    | some delta => some ({ st with highlighted := h }, delta)
  else
    if h.length = 0 then none
    else
      match strSlice h 0 (h.length - 1) with
      | none => none
      | some interior =>
          match lastNL interior with
          | none => some ({ st with highlighted := h }, [])
          | some position =>
              match strSlice h st.written position with
              | none => none
              | some delta =>
                  some ({ st with highlighted := h, written := st.written + delta.length }, delta)

/-- `StreamWriter::add_token` (writer.rs lines 24-33). -/
def add_token (g : List Nat → List Tag) (st : StreamWriter) (token : List Nat) :
    Option (StreamWriter × List Nat) :=
  let st1 := { st with original := st.original ++ token }
  if endsNL token then highlight_and_write g false st1
  else some (st1, [])

/-- `StreamWriter::complete` (writer.rs lines 35-43): ensure a trailing
newline, restyle until the end, and return the accumulated plain text. -/
def complete (g : List Nat → List Tag) (st : StreamWriter) :
    Option (StreamWriter × List Nat × List Nat) :=
  let st1 := if endsNL st.original then st
    else { st with original := st.original ++ [10] }
  match highlight_and_write g true st1 with
  | none => none
  | some r => some (r.1, r.2, r.1.original)

/-- Feed a list of fragments with `add_token`, concatenating all emitted
slices in emission order. -/
def runAdds (g : List Nat → List Tag) (st : StreamWriter) :
    List (List Nat) → Option (StreamWriter × List Nat)
  | [] => some (st, [])
  | f :: fs =>
      match add_token g st f with
      | none => none
      | some (st1, out1) =>
          match runAdds g st1 fs with
          | none => none
          | some (st2, out2) => some (st2, out1 ++ out2)

/-- Drive a fresh writer with the fragments, then `complete`; returns the
concatenation of every emitted slice and the returned plain text. -/
def runStream (g : List Nat → List Tag) (frags : List (List Nat)) :
    Option (List Nat × List Nat) :=
  match runAdds g StreamWriter.new frags with
  | none => none
  | some (st, out) =>
      match complete g st with
      | none => none
      | some (_, out2, ret) => some (out ++ out2, ret)

/-- One call on the writer: a fragment delivery or a completion. -/
inductive Op : Type where
  | add (token : List Nat)
  | fin

/-- Execute one `Op` against the writer. -/
def stepOp (g : List Nat → List Tag) (st : StreamWriter) :
    Op → Option (StreamWriter × List Nat)
  | .add token => add_token g st token
  | .fin =>
      match complete g st with
      | none => none
      | some r => some (r.1, r.2.1)

/-- Run a sequence of writer calls, recording the state after each. -/
def runTrace (g : List Nat → List Tag) (st : StreamWriter) :
    List Op → Option (List StreamWriter)
  | [] => some []
  | op :: ops =>
      match stepOp g st op with
      | none => none
      | some (st1, _) =>
          match runTrace g st1 ops with
          | none => none
          | some tr => some (st1 :: tr)

/-- Split a byte list into lines, each keeping its terminating newline
(the final line may lack one). -/
def splitNL : List Nat → List (List Nat)
  | [] => []
  | b :: t =>
      if b = 10 then [10] :: splitNL t
      else
        match splitNL t with
        | [] => [[b]]
        | l :: ls => (b :: l) :: ls

/-- Tags for a list of lines starting at a byte offset: a line starting
with `#` (byte 35) is an ATX heading spanning the whole line including
its terminator. -/
def tagsOfLines : Nat → List (List Nat) → List Tag
  | _, [] => []
  | off, l :: ls =>
      (if l.head? = some 35 then
        [⟨.HeadingBegin, off⟩, ⟨.HeadingEnd, off + l.length⟩]
      else []) ++ tagsOfLines (off + l.length) ls

/-- Stable insertion of a tag into a position-sorted list: the new tag
goes before the first strictly larger position, after equal ones were
already placed — matching Rust's stable `sort_by_key`. -/
def insertTag (t : Tag) : List Tag → List Tag
  | [] => [t]
  | u :: us =>
      if t.position ≤ u.position then t :: u :: us
      else u :: insertTag t us

/-- Stable sort by `position`, the model of `tags.sort_by_key(|tag| tag.position)`
(highlight.rs line 96). -/
def sortTags : List Tag → List Tag
  | [] => []
  | t :: ts => insertTag t (sortTags ts)

/-- Modelled from the spec: a concrete tagger standing in for the
tree-sitter parser composed with `find_tags`, covering the ATX-heading
construct. Per the repository's own test, an `atx_heading` node spans
its line including the trailing newline. Used to instantiate theorems
at concrete inputs. -/
def modelFindTags (s : List Nat) : List Tag :=
  sortTags (tagsOfLines 0 (splitNL s))

/-- A pair of tagger results is append-stable: whenever the earlier
styled buffer has a cut point (last interior newline), the later styled
buffer has one at least as far right and agrees byte-for-byte up to and
including the earlier cut. This is the spec's §4.2 stability obligation,
stated for one pair of inputs. -/
def stabPairB (g : List Nat → List Tag) (s t : List Nat) : Bool :=
  match cutIdx (highlight_markdown g s) with
  | none => true
  | some p =>
      match cutIdx (highlight_markdown g t) with
      | none => false
      | some q =>
          decide (p ≤ q) &&
            decide ((highlight_markdown g t).take (p + 1) =
              (highlight_markdown g s).take (p + 1))

/-- The line-terminated cumulative prefixes of a fragment list: the
inputs on which `add_token` triggers a re-styling pass. -/
def linePrefixes : List Nat → List (List Nat) → List (List Nat)
  | _, [] => []
  | acc, f :: fs =>
      (if endsNL f then [acc ++ f] else []) ++ linePrefixes (acc ++ f) fs

/-- The sequence of buffers on which a re-styling pass runs, for a
sequence of writer calls starting from the given accumulated text. -/
def recompPoints : List Nat → List Op → List (List Nat)
  | _, [] => []
  | acc, .add f :: ops =>
      (if endsNL f then [acc ++ f] else []) ++ recompPoints (acc ++ f) ops
  | acc, .fin :: ops =>
      (if endsNL acc then acc else acc ++ [10]) ::
        recompPoints (if endsNL acc then acc else acc ++ [10]) ops

/-- The spec's §4.2 stability obligation along a run: consecutive
re-styling inputs are pairwise append-stable. -/
def stabChainB (g : List Nat → List Tag) : List (List Nat) → Bool
  | [] => true
  | [_] => true
  | a :: b :: l => stabPairB g a b && stabChainB g (b :: l)

/-- Adjacent tags are ordered by position (the sortedness produced by
`find_tags`). -/
def posSortedB : List Tag → Bool
  | [] => true
  | [_] => true
  | a :: b :: l => decide (a.position ≤ b.position) && posSortedB (b :: l)

/-- Does `c` occur as a contiguous subsequence of `s`? -/
def hasInfixB : List Nat → List Nat → Bool
  | [], c => c.isPrefixOf []
  | b :: t, c => c.isPrefixOf (b :: t) || hasInfixB t c

/-- Is a node kind one of the three recognized by `find_tags`
(highlight.rs lines 65-77)? -/
def isTagged (kind : String) : Bool :=
  kind = "atx_heading" || kind = "code_span" || kind = "fenced_code_block" ||
    kind = "strong_emphasis"

/-- The tags pushed for one visited node (the `match node.kind()` in
`find_tags`, highlight.rs lines 65-81). -/
def tagsFor (kind : String) (startByte endByte : Nat) : List Tag :=
  if kind = "atx_heading" then
    [⟨.HeadingBegin, startByte⟩, ⟨.HeadingEnd, endByte⟩]
  else if kind = "code_span" || kind = "fenced_code_block" then
    [⟨.CodeBegin, startByte⟩, ⟨.CodeEnd, endByte⟩]
  else if kind = "strong_emphasis" then
    [⟨.StrongBegin, startByte⟩, ⟨.StrongEnd, endByte⟩]
  else []

mutual
/-- Modelled from the spec: a tree-sitter syntax tree node — a grammar
kind, a byte span, and ordered children. -/
inductive MNode : Type where
  | mk : String → Nat → Nat → MForest → MNode
/-- An ordered list of sibling nodes. -/
inductive MForest : Type where
  | nil : MForest
  | cons : MNode → MForest → MForest
end

def MNode.kindOf : MNode → String
  | .mk k _ _ _ => k

def MNode.startB : MNode → Nat
  | .mk _ s _ _ => s

def MNode.endB : MNode → Nat
  | .mk _ _ e _ => e

def MForest.toList : MForest → List MNode
  | .nil => []
  | .cons c fs => c :: fs.toList

mutual
/-- The cursor walk of `find_tags` (highlight.rs lines 58-95): a pre-order
traversal pushing, at the first visit of each node, its `tagsFor` pair. -/
def MNode.preTags : MNode → List Tag
  | .mk k s e cs => tagsFor k s e ++ MForest.preTagsF cs
/-- Pre-order tags of a sibling list, in order. -/
def MForest.preTagsF : MForest → List Tag
  | .nil => []
  | .cons c fs => c.preTags ++ fs.preTagsF
end

/-- Every node of the forest starts no earlier than `lo` and ends no
later than `hi`. -/
def withinF (lo hi : Nat) : MForest → Bool
  | .nil => true
  | .cons c fs => (decide (lo ≤ c.startB) && decide (c.endB ≤ hi)) && withinF lo hi fs

/-- Every node of the forest starts at or after byte `e`. -/
def afterF (e : Nat) : MForest → Bool
  | .nil => true
  | .cons c fs => decide (e ≤ c.startB) && afterF e fs

/-- Siblings are pairwise ordered: each node ends before every later
sibling starts. -/
def sibsF : MForest → Bool
  | .nil => true
  | .cons c fs => afterF c.endB fs && sibsF fs

mutual
/-- Modelled from the spec: well-formedness of a tree-sitter tree. Spans
are ordered, recognized constructs are never empty, children lie within
their parent, and siblings are disjoint and ordered (spec §3: tagged
spans may nest but never partially overlap). -/
def MNode.wfB : MNode → Bool
  | .mk k s e cs =>
      decide (s ≤ e) && (!isTagged k || decide (s < e)) &&
        withinF s e cs && sibsF cs && MForest.wfF cs
/-- Well-formedness of every node of a forest. -/
def MForest.wfF : MForest → Bool
  | .nil => true
  | .cons c fs => c.wfB && fs.wfF
end

/-- `find_tags` (highlight.rs lines 58-98): the pre-order traversal
followed by the stable sort by position. -/
def find_tags (tree : MNode) : List Tag :=
  sortTags tree.preTags

/-- Is this kind a span-opening tag? -/
def isBeginK : TagKind → Bool
  | .CodeBegin => true
  | .HeadingBegin => true
  | .StrongBegin => true
  | _ => false

/-- Is this kind a span-closing tag? -/
def isEndK : TagKind → Bool
  | .CodeEnd => true
  | .HeadingEnd => true
  | .StrongEnd => true
  | _ => false

/-- The tie-break of claim C2 as a relation on ordered pairs: at equal
positions, a Begin marker never precedes an End marker. -/
def tieOKB (a b : Tag) : Bool :=
  !(a.position == b.position) || !(isBeginK a.kind && isEndK b.kind)

/-- The six ANSI style sequences inserted by `highlight_markdown`,
shortest first. -/
def styleCodes : List (List Nat) :=
  [STYLE_BOLD, STYLE_DEFAULT_BG, STYLE_DEFAULT_FG, STYLE_REGULAR,
    STYLE_YELLOW_FG, STYLE_GRAY_BG]

/-- The first style code that is a prefix of `l`, if any. -/
def matchCode (l : List Nat) : Option (List Nat) :=
  styleCodes.find? (fun c => c.isPrefixOf l)

/-- Fuel-indexed scan removing every occurrence of a style code. -/
def stripF : Nat → List Nat → List Nat
  | 0, l => l
  | _ + 1, [] => []
  | fuel + 1, b :: t =>
      match matchCode (b :: t) with
      | some c => stripF fuel ((b :: t).drop c.length)
      | none => b :: stripF fuel t

/-- Remove every occurrence of the six ANSI style sequences, scanning
left to right. -/
def strip (l : List Nat) : List Nat :=
  stripF l.length l

mutual
/-- Size of a node, for induction. -/
def MNode.sz : MNode → Nat
  | .mk _ _ _ cs => MForest.szF cs + 1
/-- Size of a forest, for induction. -/
def MForest.szF : MForest → Nat
  | .nil => 0
  | .cons c fs => c.sz + MForest.szF fs
end

/-- Bounds and strictness of the tags collected from one subtree: every
tag position lies in the node's span, a Begin tag lies strictly before
the node's end, and an End tag strictly after the node's start. -/
def nodeTagInv (n : MNode) : Prop :=
  ∀ t ∈ n.preTags, n.startB ≤ t.position ∧ t.position ≤ n.endB ∧
    (isBeginK t.kind = true → t.position < n.endB) ∧
    (isEndK t.kind = true → n.startB < t.position)

/-- The same bounds for the tags of a forest lying between `lo` and `hi`. -/
def forestTagInv (lo hi : Nat) (fs : MForest) : Prop :=
  ∀ t ∈ fs.preTagsF, lo ≤ t.position ∧ t.position ≤ hi ∧
    (isBeginK t.kind = true → t.position < hi) ∧
    (isEndK t.kind = true → lo < t.position)

/-- The run invariant for the streaming claims: either nothing has been
emitted, or the `written` index is (at most) the newline cut of the
styled text of some earlier re-styled buffer `s0`, whose styled text is
the current `highlighted`, the emitted bytes so far are its first
`written` bytes, the byte at `written` is a newline, and the upcoming
re-styling inputs (prefixed with `s0`) form a stable chain. -/
def WState (g : List Nat → List Tag) (st : StreamWriter) (out : List Nat)
    (ps : List (List Nat)) : Prop :=
  (st.written = 0 ∧ out = [] ∧ stabChainB g ps = true) ∨
  (∃ s0 p, cutIdx (highlight_markdown g s0) = some p ∧ st.written ≤ p ∧
    st.highlighted = highlight_markdown g s0 ∧
    out = (highlight_markdown g s0).take st.written ∧
    (highlight_markdown g s0)[st.written]? = some 10 ∧
    stabChainB g (s0 :: ps) = true)

/-! ### Theorems -/

/-- C3, counterexample: feeding the single fragment `"# Title\n"` and
completing emits heading-begin ++ `"# Title"` ++ `"\n"` ++ heading-end;
the claimed sequence (end-style before the newline) differs. -/
theorem C3_counterexample :
    (runStream modelFindTags [[35, 32, 84, 105, 116, 108, 101, 10]]).map Prod.fst =
      some (STYLE_YELLOW_FG ++ [35, 32, 84, 105, 116, 108, 101] ++ [10] ++ STYLE_DEFAULT_FG) ∧
    STYLE_YELLOW_FG ++ [35, 32, 84, 105, 116, 108, 101] ++ [10] ++ STYLE_DEFAULT_FG ≠
      STYLE_YELLOW_FG ++ [35, 32, 84, 105, 116, 108, 101] ++ STYLE_DEFAULT_FG ++ [10] := by
  decide

/-- C3, amended: on the single fragment `"# Title\n"` followed by
`complete()`, the writer emits exactly the heading-begin style code, then
`"# Title"`, then `"\n"`, then the heading-end style code (the end style
follows the newline, since the heading node's span includes the line
terminator), and returns `"# Title\n"`. -/
theorem C3_amended_emission :
    runStream modelFindTags [[35, 32, 84, 105, 116, 108, 101, 10]] =
      some (STYLE_YELLOW_FG ++ [35, 32, 84, 105, 116, 108, 101] ++ [10] ++ STYLE_DEFAULT_FG,
        [35, 32, 84, 105, 116, 108, 101, 10]) := by
  decide

/-- C4, counterexample: `complete()` on a writer that received zero
fragments returns the single newline `"\n"`, not an empty result. -/
theorem C4_counterexample :
    (complete modelFindTags StreamWriter.new).map (fun r => r.2.2) = some [10] ∧
      ([10] : List Nat) ≠ [] := by
  decide

/-- C4, amended: `complete()` on a writer that received zero fragments
succeeds, appends the missing line terminator, emits exactly the (unstyled)
empty line `"\n"`, and returns `"\n"`. -/
theorem C4_amended_complete_empty :
    complete modelFindTags StreamWriter.new =
      some ({ original := [10], highlighted := [10], written := 0 }, [10], [10]) := by
  decide

/-- C8: the fallible `highlight_markdown` succeeds exactly when the parser
is available, for every input text and every tag result, and its only
error is `ParseUnavailable` — no input text content causes an error. -/
theorem C8_highlight_error_only_parse_unavailable :
    ∀ (parserAvailable : Bool) (g : List Nat → List Tag) (source : List Nat),
      (highlight_markdown_result parserAvailable g source).isOk = parserAvailable ∧
      highlight_markdown_result false g source =
        Except.error ParseFailure.ParseUnavailable := by
  intro parserAvailable g source
  cases parserAvailable <;>
    simp [highlight_markdown_result, Except.isOk, Except.toBool]

/-- C9, counterexample: on the input `"\x1b[1m"` (a literal occurrence of
a style sequence in the source text) the styled output is the source
itself, and stripping the style sequences erases it, so the strip of the
output is not the input. -/
theorem C9_counterexample :
    strip (highlight_markdown modelFindTags [27, 91, 49, 109]) ≠ [27, 91, 49, 109] := by
  decide

/-! ### Strip lemmas, for claim C9 -/

theorem matchCode_mem {l c : List Nat} (h : matchCode l = some c) : c ∈ styleCodes :=
  List.mem_of_find?_eq_some h

theorem matchCode_pref {l c : List Nat} (h : matchCode l = some c) : c <+: l := by
  have h2 := List.find?_some h
  simpa using h2

theorem styleCodes_len : ∀ c ∈ styleCodes, 1 ≤ c.length := by
  decide

theorem styleCodes_ne_nil : ∀ c ∈ styleCodes, c ≠ [] := by
  decide

theorem stripF_congr : ∀ (f1 : Nat) (l : List Nat) (f2 : Nat),
    l.length ≤ f1 → l.length ≤ f2 → stripF f1 l = stripF f2 l := by
  intro f1
  induction f1 with
  | zero =>
      intro l f2 h1 _
      have hl : l = [] := List.length_eq_zero.mp (Nat.le_zero.mp h1)
      subst hl
      cases f2 <;> rfl
  | succ f ih =>
      intro l f2 h1 h2
      cases l with
      | nil => cases f2 <;> rfl
      | cons b t =>
          cases f2 with
          | zero => exact absurd h2 (by simp)
          | succ f2 =>
              simp only [stripF]
              cases hm : matchCode (b :: t) with
              | none =>
                  have ht : t.length ≤ f := by
                    have := h1
                    simp only [List.length_cons] at this
                    omega
                  have ht2 : t.length ≤ f2 := by
                    have := h2
                    simp only [List.length_cons] at this
                    omega
                  rw [ih t f2 ht ht2]
              | some c =>
                  have hc : 1 ≤ c.length := styleCodes_len c (matchCode_mem hm)
                  simp only [List.length_cons] at h1 h2
                  apply ih
                  · simp only [List.length_drop, List.length_cons]
                    omega
                  · simp only [List.length_drop, List.length_cons]
                    omega

theorem strip_cons_match {b : Nat} {t c : List Nat} (h : matchCode (b :: t) = some c) :
    strip (b :: t) = strip ((b :: t).drop c.length) := by
  have hc : 1 ≤ c.length := styleCodes_len c (matchCode_mem h)
  show stripF (b :: t).length (b :: t) = stripF ((b :: t).drop c.length).length ((b :: t).drop c.length)
  have : stripF (b :: t).length (b :: t) = stripF (t.length + 1) (b :: t) := by
    simp
  rw [this]
  simp only [stripF, h]
  apply stripF_congr
  · simp only [List.length_drop, List.length_cons]
    omega
  · exact Nat.le_refl _

theorem strip_cons_none {b : Nat} {t : List Nat} (h : matchCode (b :: t) = none) :
    strip (b :: t) = b :: strip t := by
  show stripF (b :: t).length (b :: t) = _
  have : stripF (b :: t).length (b :: t) = stripF (t.length + 1) (b :: t) := by
    simp
  rw [this]
  simp only [stripF, h]
  rfl

theorem matchCode_code_append {c : List Nat} (hc : c ∈ styleCodes) (r : List Nat) :
    matchCode (c ++ r) = some c := by
  simp only [styleCodes, List.mem_cons, List.not_mem_nil, or_false] at hc
  rcases hc with h | h | h | h | h | h <;> subst h <;>
    simp [matchCode, styleCodes, List.find?, STYLE_BOLD, STYLE_DEFAULT_BG,
      STYLE_DEFAULT_FG, STYLE_REGULAR, STYLE_YELLOW_FG, STYLE_GRAY_BG,
      List.isPrefixOf, List.cons_append]

theorem strip_code_append {c : List Nat} (hc : c ∈ styleCodes) (r : List Nat) :
    strip (c ++ r) = strip r := by
  have hne : c ≠ [] := styleCodes_ne_nil c hc
  obtain ⟨b, t, rfl⟩ : ∃ b t, c = b :: t := by
    cases c with
    | nil => exact absurd rfl hne
    | cons b t => exact ⟨b, t, rfl⟩
  have hm : matchCode (b :: (t ++ r)) = some (b :: t) := by
    have := matchCode_code_append hc r
    rwa [List.cons_append] at this
  calc strip ((b :: t) ++ r) = strip (b :: (t ++ r)) := by rw [List.cons_append]
    _ = strip ((b :: (t ++ r)).drop (b :: t).length) := strip_cons_match hm
    _ = strip r := by
          simp only [List.length_cons, List.drop_succ_cons]
          rw [List.drop_left]

theorem strip_of_no_code : ∀ (l : List Nat), (∀ c ∈ styleCodes, ¬ c <:+: l) → strip l = l := by
  intro l
  induction l with
  | nil => intro _; rfl
  | cons b t ih =>
      intro h
      cases hm : matchCode (b :: t) with
      | some c =>
          exact absurd (matchCode_pref hm).isInfix (h c (matchCode_mem hm))
      | none =>
          rw [strip_cons_none hm, ih (fun c hc hinf => h c hc (List.infix_cons hinf))]

theorem styleCodes_head : ∀ c ∈ styleCodes, c.head? = some 27 := by
  decide

theorem styleCodes_tail_no_esc : ∀ c ∈ styleCodes, 27 ∉ c.tail := by
  decide

theorem strip_seg_code_append {s : List Nat} (hs : ∀ c ∈ styleCodes, ¬ c <:+: s) :
    ∀ (seg : List Nat), seg <:+: s → ∀ c0 ∈ styleCodes, ∀ (rest : List Nat),
      strip (seg ++ (c0 ++ rest)) = seg ++ strip (c0 ++ rest) := by
  intro seg
  induction seg with
  | nil =>
      intro _ c0 _ rest
      rfl
  | cons b sg ih =>
      intro hinf c0 hc0 rest
      have hnone : matchCode (b :: (sg ++ (c0 ++ rest))) = none := by
        cases hm : matchCode (b :: (sg ++ (c0 ++ rest))) with
        | none => rfl
        | some c =>
            exfalso
            have hcmem := matchCode_mem hm
            have hcpre : c <+: (b :: sg) ++ (c0 ++ rest) := by
              rw [List.cons_append]
              exact matchCode_pref hm
            rcases List.prefix_or_prefix_of_prefix hcpre
                (List.prefix_append (b :: sg) (c0 ++ rest)) with hp | hp
            · exact hs c hcmem (hp.isInfix.trans hinf)
            · obtain ⟨y, hy⟩ := hp
              cases y with
              | nil =>
                  rw [List.append_nil] at hy
                  exact hs c hcmem (hy ▸ hinf)
              | cons y0 ys =>
                  have hy2 : (y0 :: ys) <+: (c0 ++ rest) := by
                    have h3 : (b :: sg) ++ (y0 :: ys) <+: (b :: sg) ++ (c0 ++ rest) :=
                      hy ▸ hcpre
                    exact (List.prefix_append_right_inj (b :: sg)).mp h3
                  have hc0head : c0.head? = some 27 := styleCodes_head c0 hc0
                  obtain ⟨c0t, rfl⟩ : ∃ t0, c0 = 27 :: t0 := by
                    cases c0 with
                    | nil => simp at hc0head
                    | cons a t0 =>
                        simp only [List.head?_cons, Option.some.injEq] at hc0head
                        exact ⟨t0, by rw [hc0head]⟩
                  have hy0 : y0 = 27 := by
                    rw [List.cons_append] at hy2
                    exact (List.cons_prefix_cons.mp hy2).1
                  have htail : 27 ∈ c.tail := by
                    subst hy0
                    rw [← hy, List.cons_append, List.tail_cons]
                    exact List.mem_append_right sg (List.mem_cons_self 27 ys)
                  exact styleCodes_tail_no_esc c hcmem htail
      rw [List.cons_append, strip_cons_none hnone,
        ih ((List.suffix_cons b sg).isInfix.trans hinf) c0 hc0 rest, List.cons_append]

theorem styleBytes_mem : ∀ k : TagKind, styleBytes k ∈ styleCodes := by
  intro k
  cases k <;> decide

theorem strip_highlightFrom {s : List Nat} (hs : ∀ c ∈ styleCodes, ¬ c <:+: s) :
    ∀ (ts : List Tag) (pos : Nat),
      List.Chain' (fun a b : Tag => a.position ≤ b.position) ts →
      (∀ t0 ∈ ts.head?, pos ≤ t0.position) →
      strip (highlightFrom s ts pos) = s.drop pos := by
  intro ts
  induction ts with
  | nil =>
      intro pos _ _
      exact strip_of_no_code _ (fun c hc hinf =>
        hs c hc (hinf.trans (List.drop_suffix pos s).isInfix))
  | cons t ts ih =>
      intro pos hchain hhead
      have hpos : pos ≤ t.position := hhead t rfl
      have hseg : listSlice s pos t.position <:+: s :=
        (List.take_prefix _ _).isInfix.trans (List.drop_suffix pos s).isInfix
      have hrw : highlightFrom s (t :: ts) pos =
          listSlice s pos t.position ++
            (styleBytes t.kind ++ highlightFrom s ts t.position) := by
        rw [highlightFrom, List.append_assoc]
      rw [hrw, strip_seg_code_append hs _ hseg _ (styleBytes_mem t.kind) _,
        strip_code_append (styleBytes_mem t.kind),
        ih t.position (List.chain'_cons'.mp hchain).2 (List.chain'_cons'.mp hchain).1]
      show (s.drop pos).take (t.position - pos) ++ s.drop t.position = s.drop pos
      have hdd : s.drop t.position = (s.drop pos).drop (t.position - pos) := by
        rw [List.drop_drop]
        congr 1
        omega
      rw [hdd, List.take_append_drop]

theorem posSortedB_chain : ∀ l : List Tag, posSortedB l = true →
    List.Chain' (fun a b : Tag => a.position ≤ b.position) l := by
  intro l
  induction l with
  | nil => intro _; exact List.chain'_nil
  | cons a l ih =>
      cases l with
      | nil => intro _; simp
      | cons b t =>
          intro h
          simp only [posSortedB, Bool.and_eq_true, decide_eq_true_eq] at h
          exact List.chain'_cons.mpr ⟨h.1, ih h.2⟩

theorem hasInfixB_iff : ∀ (s c : List Nat), hasInfixB s c = true ↔ c <:+: s := by
  intro s
  induction s with
  | nil =>
      intro c
      simp only [hasInfixB, List.infix_nil]
      constructor
      · intro h
        have := List.isPrefixOf_iff_prefix.mp h
        simpa using this
      · intro h
        subst h
        rfl
  | cons b t ih =>
      intro c
      simp only [hasInfixB, Bool.or_eq_true, ih]
      constructor
      · rintro (h | h)
        · exact (List.isPrefixOf_iff_prefix.mp h).isInfix
        · exact List.infix_cons h
      · intro h
        rcases List.infix_cons_iff.mp h with h | h
        · exact Or.inl (List.isPrefixOf_iff_prefix.mpr h)
        · exact Or.inr h

/-- C9, amended: for every source containing no occurrence of any of the
six ANSI style sequences, and every position-sorted tag list (as
`find_tags` produces), removing all occurrences of the six style
sequences from the `highlight_markdown` output yields exactly the source:
the styled output is the source with style codes inserted. -/
theorem C9_strip_roundtrip (tags : List Tag) (s : List Nat)
    (hsorted : posSortedB tags = true)
    (hclean : styleCodes.all (fun c => !(hasInfixB s c)) = true) :
    strip (highlightBytes tags s) = s := by
  have hclean2 : ∀ c ∈ styleCodes, ¬ c <:+: s := by
    intro c hc hinf
    have h1 := List.all_eq_true.mp hclean c hc
    rw [Bool.not_eq_true', ← Bool.not_eq_true] at h1
    exact h1 ((hasInfixB_iff s c).mpr hinf)
  have := strip_highlightFrom hclean2 tags 0 (posSortedB_chain tags hsorted)
    (fun t0 _ => Nat.zero_le _)
  simpa [highlightBytes] using this

/-- Witness for C9: the heading input `"# T\n"` contains no style
sequence, its model tags are sorted, and stripping its styled output
returns the source. -/
theorem C9_strip_roundtrip_witness :
    (posSortedB (modelFindTags [35, 32, 84, 10]) = true ∧
      styleCodes.all (fun c => !(hasInfixB [35, 32, 84, 10] c)) = true) ∧
    strip (highlightBytes (modelFindTags [35, 32, 84, 10]) [35, 32, 84, 10]) =
      [35, 32, 84, 10] :=
  ⟨⟨by decide, by decide⟩,
    C9_strip_roundtrip (modelFindTags [35, 32, 84, 10]) [35, 32, 84, 10]
      (by decide) (by decide)⟩

/-! ### Sorting lemmas, for claim C2 -/

theorem tieOKB_of_ne {a b : Tag} (h : a.position ≠ b.position) : tieOKB a b = true := by
  simp [tieOKB, h]

theorem tieOKB_of_notBegin {a b : Tag} (h : isBeginK a.kind = false) : tieOKB a b = true := by
  simp [tieOKB, h]

theorem tieOKB_of_notEnd {a b : Tag} (h : isEndK b.kind = false) : tieOKB a b = true := by
  simp [tieOKB, h]

theorem mem_insertTag {x t : Tag} : ∀ {l : List Tag}, x ∈ insertTag t l ↔ x = t ∨ x ∈ l := by
  intro l
  induction l with
  | nil => simp [insertTag]
  | cons u us ih =>
      simp only [insertTag]
      by_cases h : t.position ≤ u.position
      · simp [h]
      · simp only [if_neg h, List.mem_cons, ih]
        tauto

theorem mem_sortTags {x : Tag} : ∀ {l : List Tag}, x ∈ sortTags l ↔ x ∈ l := by
  intro l
  induction l with
  | nil => simp [sortTags]
  | cons t ts ih => simp [sortTags, mem_insertTag, ih]

theorem insertTag_sorted {t : Tag} : ∀ {l : List Tag},
    List.Pairwise (fun a b : Tag => a.position ≤ b.position) l →
    List.Pairwise (fun a b : Tag => a.position ≤ b.position) (insertTag t l) := by
  intro l
  induction l with
  | nil => intro _; simp [insertTag]
  | cons u us ih =>
      intro h
      rw [List.pairwise_cons] at h
      simp only [insertTag]
      by_cases hle : t.position ≤ u.position
      · rw [if_pos hle]
        refine List.pairwise_cons.mpr ⟨?_, List.pairwise_cons.mpr ⟨h.1, h.2⟩⟩
        intro b hb
        rcases List.mem_cons.mp hb with rfl | hb
        · exact hle
        · exact hle.trans (h.1 b hb)
      · rw [if_neg hle]
        refine List.pairwise_cons.mpr ⟨?_, ih h.2⟩
        intro b hb
        rcases mem_insertTag.mp hb with rfl | hb
        · omega
        · exact h.1 b hb

theorem sortTags_sorted : ∀ l : List Tag,
    List.Pairwise (fun a b : Tag => a.position ≤ b.position) (sortTags l) := by
  intro l
  induction l with
  | nil => simp [sortTags]
  | cons t ts ih => exact insertTag_sorted ih

theorem insertTag_tie {Q : Tag → Tag → Prop} {t : Tag} : ∀ {l : List Tag},
    List.Pairwise (fun a b : Tag => a.position = b.position → Q a b) l →
    (∀ b ∈ l, t.position = b.position → Q t b) →
    List.Pairwise (fun a b : Tag => a.position = b.position → Q a b) (insertTag t l) := by
  intro l
  induction l with
  | nil => intro _ _; simp [insertTag]
  | cons u us ih =>
      intro h hall
      rw [List.pairwise_cons] at h
      simp only [insertTag]
      by_cases hle : t.position ≤ u.position
      · rw [if_pos hle]
        exact List.pairwise_cons.mpr ⟨hall, List.pairwise_cons.mpr ⟨h.1, h.2⟩⟩
      · rw [if_neg hle]
        refine List.pairwise_cons.mpr
          ⟨?_, ih h.2 (fun b hb => hall b (List.mem_cons_of_mem u hb))⟩
        intro b hb
        rcases mem_insertTag.mp hb with rfl | hb
        · intro hpos
          exact absurd hpos (by omega)
        · exact h.1 b hb

theorem sortTags_tie {Q : Tag → Tag → Prop} : ∀ l : List Tag,
    List.Pairwise (fun a b : Tag => a.position = b.position → Q a b) l →
    List.Pairwise (fun a b : Tag => a.position = b.position → Q a b) (sortTags l) := by
  intro l
  induction l with
  | nil => intro _; simp [sortTags]
  | cons t ts ih =>
      intro h
      rw [List.pairwise_cons] at h
      exact insertTag_tie (ih h.2) (fun b hb => h.1 b (mem_sortTags.mp hb))

theorem filter_insertTag (p : Nat) (t : Tag) : ∀ l : List Tag,
    (insertTag t l).filter (fun u => u.position == p) =
      (if t.position == p then t :: l.filter (fun u => u.position == p)
       else l.filter (fun u => u.position == p)) := by
  intro l
  induction l with
  | nil => simp [insertTag, List.filter_cons]
  | cons u us ih =>
      simp only [insertTag]
      by_cases hle : t.position ≤ u.position
      · rw [if_pos hle]
        by_cases ht : t.position = p <;> by_cases hu : u.position = p <;>
          simp [List.filter_cons, beq_iff_eq, ht, hu]
      · rw [if_neg hle]
        simp only [List.filter_cons, ih]
        by_cases ht : t.position = p <;> by_cases hu : u.position = p
        · exact absurd (ht.trans hu.symm) (by omega)
        · simp [beq_iff_eq, ht, hu]
        · simp [beq_iff_eq, ht, hu]
        · simp [beq_iff_eq, ht, hu]

theorem sortTags_filter (p : Nat) : ∀ l : List Tag,
    (sortTags l).filter (fun u => u.position == p) =
      l.filter (fun u => u.position == p) := by
  intro l
  induction l with
  | nil => rfl
  | cons t ts ih =>
      simp only [sortTags]
      rw [filter_insertTag, ih, List.filter_cons]

/-! ### Tree traversal lemmas, for claim C2 -/

theorem tagsFor_eq (k : String) (s e : Nat) :
    (tagsFor k s e = [] ∧ isTagged k = false) ∨
    (∃ bk ek, tagsFor k s e = [⟨bk, s⟩, ⟨ek, e⟩] ∧ isBeginK bk = true ∧
      isEndK ek = true ∧ isBeginK ek = false ∧ isEndK bk = false ∧
      isTagged k = true) := by
  by_cases h1 : k = "atx_heading"
  · exact Or.inr ⟨.HeadingBegin, .HeadingEnd, by simp [tagsFor, h1], rfl, rfl, rfl, rfl,
      by simp [isTagged, h1]⟩
  · by_cases h2 : k = "code_span"
    · exact Or.inr ⟨.CodeBegin, .CodeEnd, by simp [tagsFor, h1, h2], rfl, rfl, rfl, rfl,
        by simp [isTagged, h2]⟩
    · by_cases h3 : k = "fenced_code_block"
      · exact Or.inr ⟨.CodeBegin, .CodeEnd, by simp [tagsFor, h1, h2, h3], rfl, rfl, rfl, rfl,
          by simp [isTagged, h3]⟩
      · by_cases h4 : k = "strong_emphasis"
        · exact Or.inr ⟨.StrongBegin, .StrongEnd, by simp [tagsFor, h1, h2, h3, h4], rfl, rfl,
            rfl, rfl, by simp [isTagged, h4]⟩
        · exact Or.inl ⟨by simp [tagsFor, h1, h2, h3, h4],
            by simp [isTagged, h1, h2, h3, h4]⟩

theorem wfB_parts {k : String} {s e : Nat} {cs : MForest}
    (h : (MNode.mk k s e cs).wfB = true) :
    s ≤ e ∧ (isTagged k = true → s < e) ∧ withinF s e cs = true ∧
      sibsF cs = true ∧ MForest.wfF cs = true := by
  simp only [MNode.wfB, Bool.and_eq_true, Bool.or_eq_true, Bool.not_eq_true',
    decide_eq_true_eq] at h
  obtain ⟨⟨⟨⟨hse, htag⟩, hwithin⟩, hsibs⟩, hwff⟩ := h
  refine ⟨hse, ?_, hwithin, hsibs, hwff⟩
  intro ht
  rcases htag with h2 | h2
  · rw [ht] at h2
    cases h2
  · exact h2

theorem MNode.sz_pos : ∀ n : MNode, 1 ≤ n.sz
  | .mk _ _ _ cs => by simp [MNode.sz]

theorem wfB_se : ∀ {n : MNode}, n.wfB = true → n.startB ≤ n.endB := by
  intro n h
  cases n with
  | mk k s e cs => exact (wfB_parts h).1

theorem withinF_strengthen : ∀ (fs : MForest) (lo hi e : Nat),
    afterF e fs = true → withinF lo hi fs = true → withinF e hi fs = true
  | .nil, _, _, _, _, _ => rfl
  | .cons c fs, lo, hi, e, ha, hw => by
      simp only [afterF, withinF, Bool.and_eq_true, decide_eq_true_eq] at *
      exact ⟨⟨ha.1, hw.1.2⟩, withinF_strengthen fs lo hi e ha.2 hw.2⟩

theorem tags_inv_aux : ∀ m : Nat,
    (∀ n : MNode, n.sz ≤ m → n.wfB = true →
      nodeTagInv n ∧ List.Pairwise (fun a b : Tag => tieOKB a b = true) n.preTags) ∧
    (∀ (fs : MForest) (lo hi : Nat), fs.szF ≤ m →
      withinF lo hi fs = true → sibsF fs = true → MForest.wfF fs = true →
      forestTagInv lo hi fs ∧
        List.Pairwise (fun a b : Tag => tieOKB a b = true) fs.preTagsF) := by
  intro m
  induction m with
  | zero =>
      constructor
      · intro n hsz _
        exact absurd hsz (by have := MNode.sz_pos n; omega)
      · intro fs lo hi hsz _ _ _
        cases fs with
        | nil =>
            constructor
            · intro t ht
              simp [MForest.preTagsF] at ht
            · simp [MForest.preTagsF]
        | cons c fs =>
            exfalso
            have h1 := MNode.sz_pos c
            simp only [MForest.szF] at hsz
            omega
  | succ m ih =>
      have hnode : ∀ n : MNode, n.sz ≤ m + 1 → n.wfB = true →
          nodeTagInv n ∧ List.Pairwise (fun a b : Tag => tieOKB a b = true) n.preTags := by
        intro n hsz hwf
        cases n with
        | mk k s e cs =>
            obtain ⟨hse, htag, hwithin, hsibs, hwff⟩ := wfB_parts hwf
            have hszf : cs.szF ≤ m := by
              simp only [MNode.sz] at hsz
              omega
            obtain ⟨FB, FPW⟩ := ih.2 cs s e hszf hwithin hsibs hwff
            rcases tagsFor_eq k s e with ⟨h0, _⟩ | ⟨bk, ek, h0, hb, he, hbe, heb, hkt⟩
            · constructor
              · intro t ht
                have ht2 : t ∈ cs.preTagsF := by
                  simpa [MNode.preTags, h0] using ht
                exact FB t ht2
              · have : (MNode.mk k s e cs).preTags = cs.preTagsF := by
                  simp [MNode.preTags, h0]
                rw [this]
                exact FPW
            · have hslt : s < e := htag hkt
              have hpre : (MNode.mk k s e cs).preTags =
                  [⟨bk, s⟩, ⟨ek, e⟩] ++ cs.preTagsF := by
                simp [MNode.preTags, h0]
              constructor
              · intro t ht
                rw [hpre] at ht
                rcases List.mem_append.mp ht with ht2 | ht2
                · rcases List.mem_cons.mp ht2 with rfl | ht3
                  · exact ⟨Nat.le_refl s, hse, fun _ => hslt,
                      fun hEnd => absurd hEnd (by simp [heb])⟩
                  · have : t = ⟨ek, e⟩ := by simpa using ht3
                    subst this
                    exact ⟨hse, Nat.le_refl e, fun hB => absurd hB (by simp [hbe]),
                      fun _ => hslt⟩
                · obtain ⟨h1, h2, h3, h4⟩ := FB t ht2
                  exact ⟨h1, h2, h3, fun hEnd => h4 hEnd⟩
              · rw [hpre]
                refine List.pairwise_append.mpr ⟨?_, FPW, ?_⟩
                · refine List.pairwise_cons.mpr ⟨?_, by simp⟩
                  intro b hb
                  have : b = ⟨ek, e⟩ := by simpa using hb
                  subst this
                  exact tieOKB_of_ne (by simp; omega)
                · intro a ha b hb
                  rcases List.mem_cons.mp ha with rfl | ha2
                  · by_cases hEnd : isEndK b.kind = true
                    · have := (FB b hb).2.2.2 hEnd
                      exact tieOKB_of_ne (by simp; omega)
                    · exact tieOKB_of_notEnd (by simpa using hEnd)
                  · have : a = ⟨ek, e⟩ := by simpa using ha2
                    subst this
                    exact tieOKB_of_notBegin hbe
      refine ⟨hnode, ?_⟩
      intro fs lo hi hsz hwithin hsibs hwff
      cases fs with
      | nil =>
          constructor
          · intro t ht
            simp [MForest.preTagsF] at ht
          · simp [MForest.preTagsF]
      | cons c fs =>
          simp only [withinF, sibsF, MForest.wfF, MForest.szF, Bool.and_eq_true,
            decide_eq_true_eq] at hwithin hsibs hwff hsz
          have hszc : c.sz ≤ m + 1 := by omega
          have hszf : fs.szF ≤ m := by
            have := MNode.sz_pos c
            omega
          obtain ⟨NB, NPW⟩ := hnode c hszc hwff.1
          have hwithin2 : withinF c.endB hi fs = true :=
            withinF_strengthen fs lo hi c.endB hsibs.1 hwithin.2
          obtain ⟨FB, FPW⟩ := (ih.2) fs c.endB hi hszf hwithin2 hsibs.2 hwff.2
          have hcse : c.startB ≤ c.endB := wfB_se hwff.1
          have hpre : (MForest.cons c fs).preTagsF = c.preTags ++ fs.preTagsF := by
            simp [MForest.preTagsF]
          constructor
          · intro t ht
            rw [hpre] at ht
            rcases List.mem_append.mp ht with ht2 | ht2
            · obtain ⟨h1, h2, h3, h4⟩ := NB t ht2
              refine ⟨hwithin.1.1.trans h1, h2.trans hwithin.1.2, ?_, ?_⟩
              · intro hB
                exact Nat.lt_of_lt_of_le (h3 hB) hwithin.1.2
              · intro hEnd
                exact Nat.lt_of_le_of_lt hwithin.1.1 (h4 hEnd)
            · obtain ⟨h1, h2, h3, h4⟩ := FB t ht2
              refine ⟨?_, h2, h3, ?_⟩
              · exact (hwithin.1.1.trans hcse).trans h1
              · intro hEnd
                exact Nat.lt_of_le_of_lt (hwithin.1.1.trans hcse) (h4 hEnd)
          · rw [hpre]
            refine List.pairwise_append.mpr ⟨NPW, FPW, ?_⟩
            intro a ha b hb
            by_cases hB : isBeginK a.kind = true
            · have h3 := (NB a ha).2.2.1 hB
              have h1 := (FB b hb).1
              exact tieOKB_of_ne (by omega)
            · exact tieOKB_of_notBegin (by simpa using hB)

/-- C2: on every well-formed parse tree, the `find_tags` output is
ordered ascending by byte offset, at equal offsets a Begin marker never
precedes an End marker (Ends before Begins), and at every offset the
markers keep their source traversal order (the positionwise filter of
the sorted list equals that of the pre-order traversal). -/
theorem C2_find_tags_order (tree : MNode) (hwf : tree.wfB = true) :
    List.Pairwise (fun a b : Tag => a.position ≤ b.position) (find_tags tree) ∧
    List.Pairwise (fun a b : Tag => tieOKB a b = true) (find_tags tree) ∧
    ∀ p : Nat, (find_tags tree).filter (fun t => t.position == p) =
      tree.preTags.filter (fun t => t.position == p) := by
  refine ⟨sortTags_sorted _, ?_, fun p => sortTags_filter p _⟩
  have hpw : List.Pairwise (fun a b : Tag => tieOKB a b = true) tree.preTags :=
    ((tags_inv_aux tree.sz).1 tree (Nat.le_refl _) hwf).2
  have hpw2 : List.Pairwise
      (fun a b : Tag => a.position = b.position → tieOKB a b = true) tree.preTags := by
    refine hpw.imp ?_
    intro a b h _
    exact h
  have hpw3 := sortTags_tie tree.preTags hpw2
  refine hpw3.imp ?_
  intro a b h
  by_cases hp : a.position = b.position
  · exact h hp
  · exact tieOKB_of_ne hp

/-- Witness for C2: a well-formed document tree with a heading containing
a strong-emphasis child; the sorted tag list is position-ordered. -/
theorem C2_find_tags_order_witness :
    (MNode.mk "document" 0 9 (.cons (.mk "atx_heading" 0 9
        (.cons (.mk "strong_emphasis" 2 7 .nil) .nil)) .nil)).wfB = true ∧
    List.Pairwise (fun a b : Tag => a.position ≤ b.position)
      (find_tags (MNode.mk "document" 0 9 (.cons (.mk "atx_heading" 0 9
        (.cons (.mk "strong_emphasis" 2 7 .nil) .nil)) .nil))) :=
  ⟨by decide, (C2_find_tags_order _ (by decide)).1⟩

/-! ### Per-call writer behaviour, claims C5 and C6 -/

theorem strSlice_some {s : List Nat} {a b : Nat} {x : List Nat}
    (h : strSlice s a b = some x) :
    x = listSlice s a b ∧ a ≤ b ∧ b ≤ s.length ∧
      isCharBoundary s a = true ∧ isCharBoundary s b = true := by
  unfold strSlice at h
  split at h
  · rename_i hc
    cases h
    exact ⟨rfl, hc.1, hc.2.1, hc.2.2.1, hc.2.2.2⟩
  · cases h

theorem strSlice_pos {s : List Nat} {a b : Nat}
    (h1 : a ≤ b) (h2 : b ≤ s.length) (h3 : isCharBoundary s a = true)
    (h4 : isCharBoundary s b = true) :
    strSlice s a b = some (listSlice s a b) := by
  unfold strSlice
  rw [if_pos ⟨h1, h2, h3, h4⟩]

theorem listSlice_drop {s : List Nat} {a : Nat} : listSlice s a s.length = s.drop a := by
  unfold listSlice
  rw [← List.length_drop, List.take_length]

/-- Behaviour of a successful non-final `highlight_and_write` pass. -/
theorem haw_false_spec (g : List Nat → List Tag) (st st1 : StreamWriter)
    (out : List Nat) (h : highlight_and_write g false st = some (st1, out)) :
    st1.original = st.original ∧
    st1.highlighted = highlight_markdown g st.original ∧
    (cutIdx (highlight_markdown g st.original) = none →
      out = [] ∧ st1.written = st.written) ∧
    (∀ p, cutIdx (highlight_markdown g st.original) = some p →
      out = listSlice (highlight_markdown g st.original) st.written p ∧
      st1.written = st.written + out.length) := by
  simp only [highlight_and_write] at h
  rw [if_neg (by simp : ¬((false : Bool) = true))] at h
  split at h
  · cases h
  · rename_i hlen
    split at h
    · cases h
    · rename_i interior hint
      obtain ⟨hi1, -, -, -, -⟩ := strSlice_some hint
      subst hi1
      split at h
      · rename_i hcut
        cases h
        refine ⟨rfl, rfl, fun _ => ⟨rfl, rfl⟩, ?_⟩
        intro p hp
        rw [cutIdx, hcut] at hp
        cases hp
      · rename_i p hcut
        split at h
        · cases h
        · rename_i delta hdel
          obtain ⟨hd1, -, -, -, -⟩ := strSlice_some hdel
          subst hd1
          cases h
          refine ⟨rfl, rfl, ?_, ?_⟩
          · intro hc
            rw [cutIdx, hcut] at hc
            cases hc
          · intro q hq
            rw [cutIdx, hcut] at hq
            cases hq
            exact ⟨rfl, rfl⟩

/-- Behaviour of a successful final `highlight_and_write` pass. -/
theorem haw_true_spec (g : List Nat → List Tag) (st st1 : StreamWriter)
    (out : List Nat) (h : highlight_and_write g true st = some (st1, out)) :
    st1.original = st.original ∧
    st1.highlighted = highlight_markdown g st.original ∧
    out = (highlight_markdown g st.original).drop st.written ∧
    st1.written = st.written := by
  simp only [highlight_and_write, if_true] at h
  split at h
  · cases h
  · rename_i delta hdel
    obtain ⟨hd1, hle, -, -, -⟩ := strSlice_some hdel
    subst hd1
    cases h
    exact ⟨rfl, rfl, listSlice_drop, rfl⟩

/-- C5, counterexample: on the fresh fragment `"hello\n"` the writer
emits nothing, yet the bytes of the styled buffer strictly after
`emitted_len` (0) and before the last line boundary (the newline at
index 5) are `"hello"`, which is nonempty — a newline in final-byte
position is not treated as a line boundary by the code. -/
theorem C5_counterexample :
    (add_token modelFindTags StreamWriter.new [104, 101, 108, 108, 111, 10]).map
        (fun r => r.2) = some [] ∧
    lastNL (highlight_markdown modelFindTags [104, 101, 108, 108, 111, 10]) = some 5 ∧
    listSlice (highlight_markdown modelFindTags [104, 101, 108, 108, 111, 10]) 0 5 ≠ [] := by
  decide

/-- C5, amended: every successful `add_token` call appends the fragment
to `raw_buffer`; if the fragment does not end with a line terminator
nothing else happens and nothing is emitted; if it does, `styled_buffer`
is fully recomputed from `raw_buffer`, and the emitted slice is the bytes
of `styled_buffer` strictly after `emitted_len` and before the last line
boundary found with the final byte excluded from the search (so a newline
in final-byte position does not count; with no such boundary nothing is
emitted), `emitted_len` advancing by exactly the slice's length. -/
theorem C5_add_token_behavior (g : List Nat → List Tag) (st st1 : StreamWriter)
    (f out : List Nat) (h : add_token g st f = some (st1, out)) :
    st1.original = st.original ++ f ∧
    (endsNL f = false → st1 = { st with original := st.original ++ f } ∧ out = []) ∧
    (endsNL f = true →
      st1.highlighted = highlight_markdown g (st.original ++ f) ∧
      (cutIdx (highlight_markdown g (st.original ++ f)) = none →
        out = [] ∧ st1.written = st.written) ∧
      (∀ p, cutIdx (highlight_markdown g (st.original ++ f)) = some p →
        out = listSlice (highlight_markdown g (st.original ++ f)) st.written p ∧
        st1.written = st.written + out.length)) := by
  by_cases hNL : endsNL f = true
  · rw [add_token, if_pos hNL] at h
    obtain ⟨h1, h2, h3, h4⟩ := haw_false_spec g _ st1 out h
    refine ⟨h1, fun hf => absurd hNL (by rw [hf]; simp), fun _ => ⟨h2, h3, h4⟩⟩
  · rw [add_token, if_neg hNL] at h
    cases h
    refine ⟨rfl, fun _ => ⟨rfl, rfl⟩, fun hf => absurd hf hNL⟩

/-- Witness for C5: the fragment `"# T\n"` on a fresh writer triggers a
re-styling pass and emits the styled bytes up to the interior newline. -/
theorem C5_add_token_behavior_witness :
    add_token modelFindTags StreamWriter.new [35, 32, 84, 10] =
      some (StreamWriter.mk [35, 32, 84, 10]
          [27, 91, 51, 51, 109, 35, 32, 84, 10, 27, 91, 51, 57, 109] 8,
        [27, 91, 51, 51, 109, 35, 32, 84]) ∧
    (StreamWriter.mk [35, 32, 84, 10]
        [27, 91, 51, 51, 109, 35, 32, 84, 10, 27, 91, 51, 57, 109] 8).original =
      StreamWriter.new.original ++ [35, 32, 84, 10] :=
  ⟨by decide,
    (C5_add_token_behavior modelFindTags StreamWriter.new
      (StreamWriter.mk [35, 32, 84, 10]
        [27, 91, 51, 51, 109, 35, 32, 84, 10, 27, 91, 51, 57, 109] 8)
      [35, 32, 84, 10] [27, 91, 51, 51, 109, 35, 32, 84] (by decide)).1⟩

/-- C6: every successful `complete()` appends a line terminator to
`raw_buffer` exactly when it does not already end with one, fully
recomputes `styled_buffer`, emits the entire remaining suffix of
`styled_buffer` from `emitted_len` to its end, and returns the full
plain-text `raw_buffer`. -/
theorem C6_complete_behavior (g : List Nat → List Tag) (st st1 : StreamWriter)
    (out ret : List Nat) (h : complete g st = some (st1, out, ret)) :
    st1.original =
      (if endsNL st.original = true then st.original else st.original ++ [10]) ∧
    st1.highlighted = highlight_markdown g st1.original ∧
    out = (highlight_markdown g st1.original).drop st.written ∧
    ret = st1.original ∧
    st1.written = st.written := by
  simp only [complete] at h
  split at h
  · cases h
  · rename_i pr hhw
    cases h
    obtain ⟨h1, h2, h3, h4⟩ := haw_true_spec g _ pr.1 pr.2 hhw
    have horig : (if endsNL st.original = true then st
        else { st with original := st.original ++ [10] }).original =
        (if endsNL st.original = true then st.original else st.original ++ [10]) := by
      split <;> rfl
    have hwr : (if endsNL st.original = true then st
        else { st with original := st.original ++ [10] }).written = st.written := by
      split <;> rfl
    rw [horig] at h1
    rw [horig] at h2
    rw [horig, hwr] at h3
    rw [hwr] at h4
    exact ⟨h1, by rw [h1]; exact h2, by rw [h1]; exact h3, rfl, h4⟩

/-- Witness for C6, the spec's Scenario 3: `complete()` on `raw_buffer`
`"plain text"` appends the newline, emits `"plain text\n"` with no style
codes, and returns `"plain text\n"`. -/
theorem C6_complete_behavior_witness :
    complete modelFindTags
        (StreamWriter.mk [112, 108, 97, 105, 110, 32, 116, 101, 120, 116] [] 0) =
      some (StreamWriter.mk [112, 108, 97, 105, 110, 32, 116, 101, 120, 116, 10]
          [112, 108, 97, 105, 110, 32, 116, 101, 120, 116, 10] 0,
        [112, 108, 97, 105, 110, 32, 116, 101, 120, 116, 10],
        [112, 108, 97, 105, 110, 32, 116, 101, 120, 116, 10]) ∧
    ([112, 108, 97, 105, 110, 32, 116, 101, 120, 116, 10] : List Nat) =
      (highlight_markdown modelFindTags
        [112, 108, 97, 105, 110, 32, 116, 101, 120, 116, 10]).drop 0 :=
  ⟨by decide,
    (C6_complete_behavior modelFindTags
      (StreamWriter.mk [112, 108, 97, 105, 110, 32, 116, 101, 120, 116] [] 0)
      (StreamWriter.mk [112, 108, 97, 105, 110, 32, 116, 101, 120, 116, 10]
        [112, 108, 97, 105, 110, 32, 116, 101, 120, 116, 10] 0)
      [112, 108, 97, 105, 110, 32, 116, 101, 120, 116, 10]
      [112, 108, 97, 105, 110, 32, 116, 101, 120, 116, 10] (by decide)).2.2.1⟩

/-! ### Stability infrastructure, for claims C1, C7, C10 -/

theorem lastNL_some : ∀ {l : List Nat} {k : Nat}, lastNL l = some k →
    k < l.length ∧ l[k]? = some 10 := by
  intro l
  induction l with
  | nil => intro k h; cases h
  | cons b t ih =>
      intro k h
      simp only [lastNL] at h
      cases hlt : lastNL t with
      | some m =>
          rw [hlt] at h
          cases h
          obtain ⟨h1, h2⟩ := ih hlt
          refine ⟨by simp; omega, by simpa using h2⟩
      | none =>
          rw [hlt] at h
          by_cases hb : b = 10
          · rw [if_pos hb] at h
            cases h
            subst hb
            exact ⟨by simp, by simp⟩
          · rw [if_neg hb] at h
            cases h

theorem cutIdx_some {h : List Nat} {p : Nat} (hc : cutIdx h = some p) :
    p + 1 < h.length ∧ h[p]? = some 10 := by
  rw [cutIdx] at hc
  obtain ⟨h1, h2⟩ := lastNL_some hc
  have hsl : listSlice h 0 (h.length - 1) = h.take (h.length - 1) := by
    simp [listSlice]
  rw [hsl] at h1 h2
  simp only [List.length_take] at h1
  have hp : p < h.length - 1 := by omega
  refine ⟨by omega, ?_⟩
  rwa [List.getElem?_take_of_lt hp] at h2

theorem isCharBoundary_zero (s : List Nat) : isCharBoundary s 0 = true := by
  simp [isCharBoundary]

theorem isCharBoundary_len (s : List Nat) : isCharBoundary s s.length = true := by
  unfold isCharBoundary
  by_cases h : s.length = 0 <;> simp [h]

theorem isCharBoundary_of_ascii {s : List Nat} {i b : Nat}
    (h : s[i]? = some b) (hb : b < 128) : isCharBoundary s i = true := by
  have hlt : i < s.length := by
    by_contra hge
    rw [List.getElem?_eq_none (by omega)] at h
    cases h
  unfold isCharBoundary
  by_cases h0 : i = 0
  · simp [h0]
  · rw [if_neg h0, if_neg (by omega : ¬ i = s.length), if_pos hlt]
    have hd : s.getD i 0 = b := by
      simp [List.getD_eq_getElem?_getD, h]
    rw [hd]
    simp [hb]

theorem endsNL_ne_nil {f : List Nat} (hf : endsNL f = true) : f ≠ [] := by
  intro h
  subst h
  simp [endsNL] at hf

theorem endsNL_append {a f : List Nat} (hf : endsNL f = true) : endsNL (a ++ f) = true := by
  simp only [endsNL, beq_iff_eq] at hf ⊢
  rw [List.getLast?_append, hf]
  rfl

theorem styleBytes_ne_nil : ∀ k : TagKind, styleBytes k ≠ [] := by
  intro k
  cases k <;> decide

theorem highlight_markdown_ne_nil (g : List Nat → List Tag) {s : List Nat}
    (hs : s ≠ []) : highlight_markdown g s ≠ [] := by
  unfold highlight_markdown highlightBytes
  cases hg : g s with
  | nil => simpa [highlightFrom] using hs
  | cons t rest =>
      simp only [highlightFrom]
      intro hcontra
      simp only [List.append_eq_nil] at hcontra
      exact styleBytes_ne_nil t.kind hcontra.1.2

theorem styleBytes_last : ∀ k : TagKind, (styleBytes k).getLast? = some 109 := by
  intro k
  cases k <;> decide

theorem highlightFrom_last {s : List Nat} (hs : s.getLast? = some 10) :
    ∀ (ts : List Tag) (pos : Nat),
      (highlightFrom s ts pos).getLast? = some 10 ∨
      (highlightFrom s ts pos).getLast? = some 109 ∨
      highlightFrom s ts pos = [] := by
  intro ts
  induction ts with
  | nil =>
      intro pos
      by_cases hd : s.drop pos = []
      · right; right
        simpa [highlightFrom] using hd
      · left
        show (s.drop pos).getLast? = some 10
        have h2 : s.getLast? = (s.drop pos).getLast? := by
          conv_lhs => rw [← List.take_append_drop pos s]
          rw [List.getLast?_append]
          cases hgl : (s.drop pos).getLast? with
          | none => exact absurd (List.getLast?_eq_none_iff.mp hgl) hd
          | some x => rfl
        rw [← h2, hs]
  | cons t rest ih =>
      intro pos
      have hrw : highlightFrom s (t :: rest) pos =
          listSlice s pos t.position ++
            (styleBytes t.kind ++ highlightFrom s rest t.position) := by
        rw [highlightFrom, List.append_assoc]
      rw [hrw]
      rcases ih t.position with h1 | h1 | h1
      · left
        simp [List.getLast?_append, h1]
      · right; left
        simp [List.getLast?_append, h1]
      · right; left
        rw [h1]
        simp [List.getLast?_append, styleBytes_last t.kind]

theorem highlight_last_boundary (g : List Nat → List Tag) {s : List Nat}
    (hs : endsNL s = true) :
    isCharBoundary (highlight_markdown g s)
      ((highlight_markdown g s).length - 1) = true := by
  have hs2 : s.getLast? = some 10 := by
    simpa [endsNL, beq_iff_eq] using hs
  rcases highlightFrom_last hs2 (g s) 0 with h | h | h
  · exact isCharBoundary_of_ascii (by rw [← List.getLast?_eq_getElem?]; exact h)
      (by omega)
  · exact isCharBoundary_of_ascii (by rw [← List.getLast?_eq_getElem?]; exact h)
      (by omega)
  · have : (highlight_markdown g s).length = 0 := by
      simp [highlight_markdown, highlightBytes, h]
    rw [this]
    exact isCharBoundary_zero _

theorem take_agree_get {A B : List Nat} {p w : Nat}
    (hag : A.take (p + 1) = B.take (p + 1)) (hw : w ≤ p) : A[w]? = B[w]? := by
  have h := congrArg (fun l => l[w]?) hag
  simpa [List.getElem?_take_of_lt (by omega : w < p + 1)] using h

theorem take_agree_take {A B : List Nat} {p w : Nat}
    (hag : A.take (p + 1) = B.take (p + 1)) (hw : w ≤ p + 1) :
    A.take w = B.take w := by
  have h := congrArg (fun l => l.take w) hag
  simpa [List.take_take, Nat.min_eq_left hw] using h

theorem length_ge_of_take_agree {A B : List Nat} {p : Nat}
    (hag : A.take (p + 1) = B.take (p + 1)) (hlen : p + 1 ≤ B.length) :
    p + 1 ≤ A.length := by
  have h := congrArg List.length hag
  simp only [List.length_take] at h
  omega

theorem stabPairB_some {g : List Nat → List Tag} {s t : List Nat} {p : Nat}
    (hst : stabPairB g s t = true)
    (hc : cutIdx (highlight_markdown g s) = some p) :
    ∃ q, cutIdx (highlight_markdown g t) = some q ∧ p ≤ q ∧
      (highlight_markdown g t).take (p + 1) =
        (highlight_markdown g s).take (p + 1) := by
  unfold stabPairB at hst
  rw [hc] at hst
  cases hq : cutIdx (highlight_markdown g t) with
  | none => rw [hq] at hst; cases hst
  | some q =>
      rw [hq] at hst
      simp only [Bool.and_eq_true, decide_eq_true_eq] at hst
      exact ⟨q, rfl, hst.1, hst.2⟩

theorem stabChainB_cons_cons {g : List Nat → List Tag} {a b : List Nat}
    {l : List (List Nat)} (h : stabChainB g (a :: b :: l) = true) :
    stabPairB g a b = true ∧ stabChainB g (b :: l) = true := by
  simpa [stabChainB, Bool.and_eq_true] using h

theorem stabChainB_tail {g : List Nat → List Tag} {a : List Nat}
    {l : List (List Nat)} (h : stabChainB g (a :: l) = true) :
    stabChainB g l = true := by
  cases l with
  | nil => rfl
  | cons b l => exact (stabChainB_cons_cons h).2

theorem listSlice_length {s : List Nat} {a b : Nat} (h1 : a ≤ b)
    (h2 : b ≤ s.length) : (listSlice s a b).length = b - a := by
  simp only [listSlice, List.length_take, List.length_drop]
  omega

theorem take_append_listSlice {s : List Nat} {w q : Nat} (h : w ≤ q) :
    s.take w ++ listSlice s w q = s.take q := by
  have h1 : (s.drop w).take (q - w) = (s.take q).drop w := by
    rw [List.take_drop, Nat.add_sub_cancel' h]
  have h2 : s.take w = (s.take q).take w := by
    rw [List.take_take, Nat.min_eq_left h]
  rw [listSlice, h1, h2, List.take_append_drop]

theorem haw_false_eq_none (g : List Nat → List Tag) (st : StreamWriter)
    (hlen : ¬ (highlight_markdown g st.original).length = 0)
    (hlastb : isCharBoundary (highlight_markdown g st.original)
      ((highlight_markdown g st.original).length - 1) = true)
    (hcut : cutIdx (highlight_markdown g st.original) = none) :
    highlight_and_write g false st =
      some ({ st with highlighted := highlight_markdown g st.original }, []) := by
  unfold highlight_and_write
  rw [if_neg (by simp : ¬((false : Bool) = true)), if_neg hlen]
  split
  · rename_i hsl
    rw [strSlice_pos (Nat.zero_le _) (by omega) (isCharBoundary_zero _) hlastb] at hsl
    cases hsl
  · rename_i interior hsl
    obtain ⟨hi, -, -, -, -⟩ := strSlice_some hsl
    subst hi
    split
    · rfl
    · rename_i p hcc
      rw [cutIdx] at hcut
      rw [hcut] at hcc
      cases hcc

theorem haw_false_eq_some (g : List Nat → List Tag) (st : StreamWriter) (p : Nat)
    (hlen : ¬ (highlight_markdown g st.original).length = 0)
    (hlastb : isCharBoundary (highlight_markdown g st.original)
      ((highlight_markdown g st.original).length - 1) = true)
    (hcut : cutIdx (highlight_markdown g st.original) = some p)
    (hw : st.written ≤ p)
    (hbw : isCharBoundary (highlight_markdown g st.original) st.written = true) :
    highlight_and_write g false st =
      some ({ st with highlighted := highlight_markdown g st.original, written := st.written + (listSlice (highlight_markdown g st.original) st.written p).length },
        listSlice (highlight_markdown g st.original) st.written p) := by
  obtain ⟨hp1, hp2⟩ := cutIdx_some hcut
  have hbp : isCharBoundary (highlight_markdown g st.original) p = true :=
    isCharBoundary_of_ascii hp2 (by omega)
  unfold highlight_and_write
  rw [if_neg (by simp : ¬((false : Bool) = true)), if_neg hlen]
  split
  · rename_i hsl
    rw [strSlice_pos (Nat.zero_le _) (by omega) (isCharBoundary_zero _) hlastb] at hsl
    cases hsl
  · rename_i interior hsl
    obtain ⟨hi, -, -, -, -⟩ := strSlice_some hsl
    subst hi
    split
    · rename_i hcc
      rw [cutIdx] at hcut
      rw [hcc] at hcut
      cases hcut
    · rename_i q hcc
      rw [cutIdx] at hcut
      rw [hcc] at hcut
      cases hcut
      split
      · rename_i hds
        rw [strSlice_pos hw (by omega) hbw hbp] at hds
        cases hds
      · rename_i delta hds
        obtain ⟨hd, -, -, -, -⟩ := strSlice_some hds
        subst hd
        rfl

theorem haw_true_eq (g : List Nat → List Tag) (st : StreamWriter)
    (hw : st.written ≤ (highlight_markdown g st.original).length)
    (hbw : isCharBoundary (highlight_markdown g st.original) st.written = true) :
    highlight_and_write g true st =
      some ({ st with highlighted := highlight_markdown g st.original },
        (highlight_markdown g st.original).drop st.written) := by
  unfold highlight_and_write
  rw [if_pos rfl]
  split
  · rename_i hsl
    rw [strSlice_pos hw (Nat.le_refl _) hbw (isCharBoundary_len _)] at hsl
    cases hsl
  · rename_i delta hds
    obtain ⟨hd, -, -, -, -⟩ := strSlice_some hds
    subst hd
    rw [listSlice_drop]

theorem add_restyle_spec (g : List Nat → List Tag) (st : StreamWriter)
    (f out0 : List Nat) (hNL : endsNL f = true) (ps : List (List Nat))
    (hws : WState g st out0 ((st.original ++ f) :: ps)) :
    ∃ st1 out, add_token g st f = some (st1, out) ∧
      st1.original = st.original ++ f ∧
      st.written ≤ st1.written ∧
      WState g st1 (out0 ++ out) ps := by
  have hsNL : endsNL (st.original ++ f) = true := endsNL_append hNL
  have hne : st.original ++ f ≠ [] := by
    intro hc
    exact endsNL_ne_nil hNL (List.append_eq_nil.mp hc).2
  have hhne : highlight_markdown g (st.original ++ f) ≠ [] :=
    highlight_markdown_ne_nil g hne
  have hlen : ¬ (highlight_markdown g (st.original ++ f)).length = 0 := by
    simpa [List.length_eq_zero] using hhne
  have hstep : add_token g st f =
      highlight_and_write g false { st with original := st.original ++ f } := by
    unfold add_token
    rw [if_pos hNL]
  have hlastb : isCharBoundary (highlight_markdown g (st.original ++ f))
      ((highlight_markdown g (st.original ++ f)).length - 1) = true :=
    highlight_last_boundary g hsNL
  rcases hws with ⟨hw0, hout0, hchain⟩ | ⟨s0, p0, hc0, hwp, hhl, hout, hbyte, hchain⟩
  · cases hcut : cutIdx (highlight_markdown g (st.original ++ f)) with
    | none =>
        refine ⟨{ st with original := st.original ++ f, highlighted := highlight_markdown g (st.original ++ f) }, [], by
            rw [hstep]
            exact haw_false_eq_none g { st with original := st.original ++ f }
              hlen hlastb hcut,
          rfl, Nat.le_refl _, ?_⟩
        left
        exact ⟨hw0, by simp [hout0], stabChainB_tail hchain⟩
    | some q =>
        obtain ⟨hq1, hq2⟩ := cutIdx_some hcut
        have hwbq : st.written ≤ q := by omega
        have hqlen : q ≤ (highlight_markdown g (st.original ++ f)).length := by omega
        have hlsl : (listSlice (highlight_markdown g (st.original ++ f))
            st.written q).length = q - st.written := listSlice_length hwbq hqlen
        refine ⟨{ st with original := st.original ++ f, highlighted := highlight_markdown g (st.original ++ f), written := st.written + (listSlice (highlight_markdown g (st.original ++ f)) st.written q).length },
          listSlice (highlight_markdown g (st.original ++ f)) st.written q, by
            rw [hstep]
            exact haw_false_eq_some g { st with original := st.original ++ f } q
              hlen hlastb hcut hwbq
              (by show isCharBoundary (highlight_markdown g (st.original ++ f))
                    st.written = true
                  rw [hw0]
                  exact isCharBoundary_zero _),
          rfl, Nat.le_add_right _ _, ?_⟩
        right
        refine ⟨st.original ++ f, q, hcut, ?_, rfl, ?_, ?_, ?_⟩
        · show st.written + (listSlice (highlight_markdown g (st.original ++ f))
            st.written q).length ≤ q
          rw [hlsl]
          omega
        · show out0 ++ listSlice (highlight_markdown g (st.original ++ f))
              st.written q =
            (highlight_markdown g (st.original ++ f)).take
              (st.written + (listSlice (highlight_markdown g (st.original ++ f))
                st.written q).length)
          rw [hlsl, Nat.add_sub_cancel' hwbq, hout0, hw0]
          simp [listSlice]
        · show (highlight_markdown g (st.original ++ f))[st.written +
            (listSlice (highlight_markdown g (st.original ++ f))
              st.written q).length]? = some 10
          rw [hlsl, Nat.add_sub_cancel' hwbq]
          exact hq2
        · exact hchain
  · obtain ⟨hpair, hchain2⟩ := stabChainB_cons_cons hchain
    obtain ⟨q, hcq, hpq, hag⟩ := stabPairB_some hpair hc0
    obtain ⟨hq1, hq2⟩ := cutIdx_some hcq
    have hbw : (highlight_markdown g (st.original ++ f))[st.written]? = some 10 := by
      rw [take_agree_get hag hwp]
      exact hbyte
    have hwq : st.written ≤ q := by omega
    have hqlen : q ≤ (highlight_markdown g (st.original ++ f)).length := by omega
    have hlsl : (listSlice (highlight_markdown g (st.original ++ f))
        st.written q).length = q - st.written := listSlice_length hwq hqlen
    refine ⟨{ st with original := st.original ++ f, highlighted := highlight_markdown g (st.original ++ f), written := st.written + (listSlice (highlight_markdown g (st.original ++ f)) st.written q).length },
      listSlice (highlight_markdown g (st.original ++ f)) st.written q, by
        rw [hstep]
        exact haw_false_eq_some g { st with original := st.original ++ f } q
          hlen hlastb hcq hwq (isCharBoundary_of_ascii hbw (by omega)),
      rfl, Nat.le_add_right _ _, ?_⟩
    right
    refine ⟨st.original ++ f, q, hcq, ?_, rfl, ?_, ?_, ?_⟩
    · show st.written + (listSlice (highlight_markdown g (st.original ++ f))
        st.written q).length ≤ q
      rw [hlsl]
      omega
    · show out0 ++ listSlice (highlight_markdown g (st.original ++ f))
          st.written q =
        (highlight_markdown g (st.original ++ f)).take
          (st.written + (listSlice (highlight_markdown g (st.original ++ f))
            st.written q).length)
      rw [hlsl, Nat.add_sub_cancel' hwq, hout,
        ← take_agree_take hag (by omega)]
      exact take_append_listSlice hwq
    · show (highlight_markdown g (st.original ++ f))[st.written +
        (listSlice (highlight_markdown g (st.original ++ f))
          st.written q).length]? = some 10
      rw [hlsl, Nat.add_sub_cancel' hwq]
      exact hq2
    · exact hchain2

theorem fin_restyle_spec (g : List Nat → List Tag) (st : StreamWriter)
    (out0 : List Nat) (ps : List (List Nat))
    (hws : WState g st out0
      ((if endsNL st.original = true then st.original else st.original ++ [10]) :: ps)) :
    ∃ st1 delta, complete g st = some (st1, delta, st1.original) ∧
      st1.original =
        (if endsNL st.original = true then st.original else st.original ++ [10]) ∧
      st1.written = st.written ∧
      st1.highlighted = highlight_markdown g st1.original ∧
      out0 ++ delta = highlight_markdown g st1.original ∧
      ∃ o1, WState g st1 o1 ps := by
  by_cases hNL : endsNL st.original = true
  · have hA : (if endsNL st.original = true then st.original
        else st.original ++ [10]) = st.original := if_pos hNL
    rw [hA] at hws ⊢
    have hble : st.written ≤ (highlight_markdown g st.original).length ∧
        isCharBoundary (highlight_markdown g st.original) st.written = true := by
      rcases hws with ⟨hw0, -, -⟩ | ⟨s0, p0, hc0, hwp, -, -, hbyte, hchain⟩
      · rw [hw0]
        exact ⟨Nat.zero_le _, isCharBoundary_zero _⟩
      · obtain ⟨hpair, -⟩ := stabChainB_cons_cons hchain
        obtain ⟨q, hcq, hpq, hag⟩ := stabPairB_some hpair hc0
        obtain ⟨hp1, -⟩ := cutIdx_some hc0
        have hlenA : p0 + 1 ≤ (highlight_markdown g st.original).length :=
          length_ge_of_take_agree hag (by omega)
        have hbw : (highlight_markdown g st.original)[st.written]? = some 10 := by
          rw [take_agree_get hag hwp]
          exact hbyte
        exact ⟨by omega, isCharBoundary_of_ascii hbw (by omega)⟩
    have hst1 : (if endsNL st.original = true then st
        else { st with original := st.original ++ [10] }) = st := if_pos hNL
    have hcomp : complete g st =
        some ({ st with highlighted := highlight_markdown g st.original },
          (highlight_markdown g st.original).drop st.written, st.original) := by
      simp only [complete, hst1]
      rw [haw_true_eq g st hble.1 hble.2]
    refine ⟨{ st with highlighted := highlight_markdown g st.original },
      (highlight_markdown g st.original).drop st.written, hcomp, rfl, rfl, rfl, ?_, ?_⟩
    · rcases hws with ⟨hw0, hout0, -⟩ | ⟨s0, p0, hc0, hwp, -, hout, hbyte, hchain⟩
      · rw [hout0, hw0]
        simp
      · obtain ⟨hpair, -⟩ := stabChainB_cons_cons hchain
        obtain ⟨q, hcq, hpq, hag⟩ := stabPairB_some hpair hc0
        rw [hout, ← take_agree_take hag (by omega)]
        exact List.take_append_drop _ _
    · rcases hws with ⟨hw0, hout0, hchain⟩ | ⟨s0, p0, hc0, hwp, -, hout, hbyte, hchain⟩
      · exact ⟨[], Or.inl ⟨hw0, rfl, stabChainB_tail hchain⟩⟩
      · obtain ⟨hpair, hchain2⟩ := stabChainB_cons_cons hchain
        obtain ⟨q, hcq, hpq, hag⟩ := stabPairB_some hpair hc0
        refine ⟨(highlight_markdown g st.original).take st.written, Or.inr ?_⟩
        refine ⟨st.original, q, hcq, by show st.written ≤ q; omega, rfl, rfl, ?_,
          hchain2⟩
        show (highlight_markdown g st.original)[st.written]? = some 10
        rw [take_agree_get hag hwp]
        exact hbyte
  · have hA : (if endsNL st.original = true then st.original
        else st.original ++ [10]) = st.original ++ [10] := if_neg hNL
    rw [hA] at hws ⊢
    have hble : st.written ≤ (highlight_markdown g (st.original ++ [10])).length ∧
        isCharBoundary (highlight_markdown g (st.original ++ [10])) st.written = true := by
      rcases hws with ⟨hw0, -, -⟩ | ⟨s0, p0, hc0, hwp, -, -, hbyte, hchain⟩
      · rw [hw0]
        exact ⟨Nat.zero_le _, isCharBoundary_zero _⟩
      · obtain ⟨hpair, -⟩ := stabChainB_cons_cons hchain
        obtain ⟨q, hcq, hpq, hag⟩ := stabPairB_some hpair hc0
        obtain ⟨hp1, -⟩ := cutIdx_some hc0
        have hlenA : p0 + 1 ≤ (highlight_markdown g (st.original ++ [10])).length :=
          length_ge_of_take_agree hag (by omega)
        have hbw : (highlight_markdown g (st.original ++ [10]))[st.written]? = some 10 := by
          rw [take_agree_get hag hwp]
          exact hbyte
        exact ⟨by omega, isCharBoundary_of_ascii hbw (by omega)⟩
    have hst1 : (if endsNL st.original = true then st
        else { st with original := st.original ++ [10] }) =
        { st with original := st.original ++ [10] } := if_neg hNL
    have hcomp : complete g st =
        some ({ st with original := st.original ++ [10], highlighted := highlight_markdown g (st.original ++ [10]) },
          (highlight_markdown g (st.original ++ [10])).drop st.written,
          st.original ++ [10]) := by
      simp only [complete, hst1]
      rw [haw_true_eq g { st with original := st.original ++ [10] } hble.1 hble.2]
    refine ⟨{ st with original := st.original ++ [10], highlighted := highlight_markdown g (st.original ++ [10]) },
      (highlight_markdown g (st.original ++ [10])).drop st.written,
      hcomp, rfl, rfl, rfl, ?_, ?_⟩
    · rcases hws with ⟨hw0, hout0, -⟩ | ⟨s0, p0, hc0, hwp, -, hout, hbyte, hchain⟩
      · rw [hout0, hw0]
        simp
      · obtain ⟨hpair, -⟩ := stabChainB_cons_cons hchain
        obtain ⟨q, hcq, hpq, hag⟩ := stabPairB_some hpair hc0
        rw [hout, ← take_agree_take hag (by omega)]
        exact List.take_append_drop _ _
    · rcases hws with ⟨hw0, hout0, hchain⟩ | ⟨s0, p0, hc0, hwp, -, hout, hbyte, hchain⟩
      · exact ⟨[], Or.inl ⟨hw0, rfl, stabChainB_tail hchain⟩⟩
      · obtain ⟨hpair, hchain2⟩ := stabChainB_cons_cons hchain
        obtain ⟨q, hcq, hpq, hag⟩ := stabPairB_some hpair hc0
        refine ⟨(highlight_markdown g (st.original ++ [10])).take st.written, Or.inr ?_⟩
        refine ⟨st.original ++ [10], q, hcq, by show st.written ≤ q; omega, rfl, rfl,
          ?_, hchain2⟩
        show (highlight_markdown g (st.original ++ [10]))[st.written]? = some 10
        rw [take_agree_get hag hwp]
        exact hbyte

theorem WState_bound (g : List Nat → List Tag) (st : StreamWriter) (out : List Nat)
    (ps : List (List Nat)) (hws : WState g st out ps) :
    st.written ≤ st.highlighted.length ∧
      isCharBoundary st.highlighted st.written = true := by
  rcases hws with ⟨hw0, -, -⟩ | ⟨s0, p0, hc0, hwp, hhl, -, hbyte, -⟩
  · rw [hw0]
    exact ⟨Nat.zero_le _, isCharBoundary_zero _⟩
  · obtain ⟨hp1, -⟩ := cutIdx_some hc0
    rw [hhl]
    exact ⟨by omega, isCharBoundary_of_ascii hbyte (by omega)⟩

theorem runAdds_master (g : List Nat → List Tag) (S : List Nat) :
    ∀ (fs : List (List Nat)) (st : StreamWriter) (out0 : List Nat),
      st.original ++ fs.flatten = S →
      WState g st out0 (linePrefixes st.original fs ++ [S]) →
      ∃ st1 out1, runAdds g st fs = some (st1, out1) ∧ st1.original = S ∧
        WState g st1 (out0 ++ out1) [S] := by
  intro fs
  induction fs with
  | nil =>
      intro st out0 hS hws
      refine ⟨st, [], rfl, by simpa using hS, ?_⟩
      rw [List.append_nil]
      simpa [linePrefixes] using hws
  | cons f fs ih =>
      intro st out0 hS hws
      by_cases hNL : endsNL f = true
      · rw [show linePrefixes st.original (f :: fs) =
            (st.original ++ f) :: linePrefixes (st.original ++ f) fs from by
          simp [linePrefixes, hNL]] at hws
        rw [List.cons_append] at hws
        obtain ⟨st1, out, hadd, horig1, hmono, hws1⟩ :=
          add_restyle_spec g st f out0 hNL
            (linePrefixes (st.original ++ f) fs ++ [S]) hws
        obtain ⟨st2, out2, hrun2, horig2, hws2⟩ := ih st1 (out0 ++ out)
          (by rw [horig1, List.append_assoc]
              simpa [List.flatten_cons] using hS)
          (by rw [horig1]; exact hws1)
        refine ⟨st2, out ++ out2, ?_, horig2, ?_⟩
        · simp only [runAdds, hadd, hrun2]
        · rw [← List.append_assoc]
          exact hws2
      · have hadd : add_token g st f =
            some ({ st with original := st.original ++ f }, []) := by
          unfold add_token
          rw [if_neg hNL]
        have hws' : WState g { st with original := st.original ++ f } out0
            (linePrefixes (st.original ++ f) fs ++ [S]) := by
          rw [show linePrefixes st.original (f :: fs) =
              linePrefixes (st.original ++ f) fs from by
            simp [linePrefixes, hNL]] at hws
          exact hws
        obtain ⟨st2, out2, hrun2, horig2, hws2⟩ := ih _ out0
          (by show (st.original ++ f) ++ fs.flatten = S
              rw [List.append_assoc]
              simpa [List.flatten_cons] using hS)
          hws'
        refine ⟨st2, [] ++ out2, ?_, horig2, ?_⟩
        · simp only [runAdds, hadd, hrun2]
        · simpa using hws2

theorem runTrace_master (g : List Nat → List Tag) : ∀ (ops : List Op)
    (st : StreamWriter) (out0 : List Nat),
    WState g st out0 (recompPoints st.original ops) →
    ∃ tr, runTrace g st ops = some tr ∧
      List.Chain' (fun a b : Nat => a ≤ b)
        (st.written :: tr.map StreamWriter.written) ∧
      ∀ x ∈ tr, x.written ≤ x.highlighted.length ∧
        isCharBoundary x.highlighted x.written = true := by
  intro ops
  induction ops with
  | nil =>
      intro st out0 _
      exact ⟨[], rfl, by simp, by simp⟩
  | cons op ops ih =>
      intro st out0 hws
      cases op with
      | add f =>
          by_cases hNL : endsNL f = true
          · rw [show recompPoints st.original (Op.add f :: ops) =
                (st.original ++ f) :: recompPoints (st.original ++ f) ops from by
              simp [recompPoints, hNL]] at hws
            obtain ⟨st1, out, hadd, horig1, hmono, hws1⟩ :=
              add_restyle_spec g st f out0 hNL (recompPoints (st.original ++ f) ops) hws
            obtain ⟨tr, hrun, hchain, hinv⟩ := ih st1 (out0 ++ out)
              (by rw [horig1]; exact hws1)
            refine ⟨st1 :: tr, ?_, ?_, ?_⟩
            · simp only [runTrace, stepOp, hadd, hrun]
            · exact List.chain'_cons.mpr ⟨hmono, hchain⟩
            · intro x hx
              rcases List.mem_cons.mp hx with rfl | hx2
              · exact WState_bound g x (out0 ++ out) _ hws1
              · exact hinv x hx2
          · have hadd : add_token g st f =
                some ({ st with original := st.original ++ f }, []) := by
              unfold add_token
              rw [if_neg hNL]
            have hws' : WState g { st with original := st.original ++ f } out0
                (recompPoints (st.original ++ f) ops) := by
              rw [show recompPoints st.original (Op.add f :: ops) =
                  recompPoints (st.original ++ f) ops from by
                simp [recompPoints, hNL]] at hws
              exact hws
            obtain ⟨tr, hrun, hchain, hinv⟩ := ih _ out0 hws'
            refine ⟨{ st with original := st.original ++ f } :: tr, ?_, ?_, ?_⟩
            · simp only [runTrace, stepOp, hadd, hrun]
            · exact List.chain'_cons.mpr ⟨Nat.le_refl _, hchain⟩
            · intro x hx
              rcases List.mem_cons.mp hx with rfl | hx2
              · exact WState_bound g _ out0 _ hws'
              · exact hinv x hx2
      | fin =>
          rw [show recompPoints st.original (Op.fin :: ops) =
              (if endsNL st.original = true then st.original else st.original ++ [10]) ::
                recompPoints (if endsNL st.original = true then st.original
                  else st.original ++ [10]) ops from by
            simp [recompPoints]] at hws
          obtain ⟨st1, delta, hcomp, horig1, hwr1, hhl1, hout1, o1, hws1⟩ :=
            fin_restyle_spec g st out0 _ hws
          obtain ⟨tr, hrun, hchain, hinv⟩ := ih st1 o1 (by rw [horig1]; exact hws1)
          refine ⟨st1 :: tr, ?_, ?_, ?_⟩
          · simp only [runTrace, stepOp, hcomp, hrun]
          · exact List.chain'_cons.mpr ⟨by rw [hwr1], hchain⟩
          · intro x hx
            rcases List.mem_cons.mp hx with rfl | hx2
            · exact WState_bound g x o1 _ hws1
            · exact hinv x hx2

/-- C1: for every line-terminated text and every splitting into
fragments, driving the writer with `add_token` on each fragment and then
`complete()` emits, in total and in emission order, exactly the
`highlight_markdown` output of the whole text (and returns the text).
The append-stability of the tagger along the run (the spec's §4.2
obligation for the external parser) is a hypothesis. -/
theorem C1_streaming_refines_batch (g : List Nat → List Tag)
    (frags : List (List Nat)) (hS : endsNL frags.flatten = true)
    (hstab : stabChainB g (linePrefixes [] frags ++ [frags.flatten]) = true) :
    runStream g frags =
      some (highlight_markdown g frags.flatten, frags.flatten) := by
  obtain ⟨st1, out1, hrun, horig, hws⟩ :=
    runAdds_master g frags.flatten frags StreamWriter.new []
      (by simp [StreamWriter.new])
      (Or.inl ⟨rfl, rfl, hstab⟩)
  have hws' : WState g st1 out1
      ((if endsNL st1.original = true then st1.original
        else st1.original ++ [10]) :: []) := by
    rw [horig, if_pos hS]
    exact hws
  obtain ⟨st2, delta, hcomp, horig2, -, -, hout2, -⟩ :=
    fin_restyle_spec g st1 out1 [] hws'
  have hfin : st2.original = frags.flatten := by
    rw [horig2, horig, if_pos hS]
  rw [hfin] at hout2
  simp only [runStream, hrun, hcomp, hout2, hfin]

/-- C7: across every sequence of `add_token` and `complete()` calls on
one writer (under the spec's append-stability of the external tagger),
every call succeeds, the `written` index is monotonically non-decreasing
along the run, and after every call `written` is at most the length of
the recomputed `highlighted` buffer. -/
theorem C7_emitted_len_monotone (g : List Nat → List Tag) (ops : List Op)
    (hstab : stabChainB g (recompPoints [] ops) = true) :
    ∃ tr, runTrace g StreamWriter.new ops = some tr ∧
      List.Chain' (fun a b : Nat => a ≤ b)
        (StreamWriter.new.written :: tr.map StreamWriter.written) ∧
      ∀ x ∈ tr, x.written ≤ x.highlighted.length := by
  obtain ⟨tr, h1, h2, h3⟩ := runTrace_master g ops StreamWriter.new []
    (Or.inl ⟨rfl, rfl, hstab⟩)
  exact ⟨tr, h1, h2, fun x hx => (h3 x hx).1⟩

/-- Witness for C7: the run `add_token "# T\n"` then `complete()` under
the concrete model tagger satisfies the stability chain and the
monotonicity conclusion. -/
theorem C7_emitted_len_monotone_witness :
    stabChainB modelFindTags
      (recompPoints [] [Op.add [35, 32, 84, 10], Op.fin]) = true ∧
    ∃ tr, runTrace modelFindTags StreamWriter.new
        [Op.add [35, 32, 84, 10], Op.fin] = some tr ∧
      List.Chain' (fun a b : Nat => a ≤ b)
        (StreamWriter.new.written :: tr.map StreamWriter.written) ∧
      ∀ x ∈ tr, x.written ≤ x.highlighted.length :=
  ⟨by decide, C7_emitted_len_monotone modelFindTags
    [Op.add [35, 32, 84, 10], Op.fin] (by decide)⟩

/-- C10: under the spec's append-stability of the external tagger, no
writer call panics: every slice taken by `highlight_and_write` is in
bounds and on character boundaries — in particular, after every call the
stored `written` index is at most the length of the recomputed
`styled_buffer` and lies on a character boundary of it. -/
theorem C10_no_panic (g : List Nat → List Tag) (ops : List Op)
    (hstab : stabChainB g (recompPoints [] ops) = true) :
    (runTrace g StreamWriter.new ops).isSome = true ∧
    ∀ tr, runTrace g StreamWriter.new ops = some tr →
      ∀ x ∈ tr, x.written ≤ x.highlighted.length ∧
        isCharBoundary x.highlighted x.written = true := by
  obtain ⟨tr, h1, -, h3⟩ := runTrace_master g ops StreamWriter.new []
    (Or.inl ⟨rfl, rfl, hstab⟩)
  refine ⟨by rw [h1]; rfl, ?_⟩
  intro tr2 h2
  rw [h1] at h2
  cases h2
  exact h3

/-- Witness for C10: a concrete two-call run succeeds with in-bounds,
boundary-aligned indices. -/
theorem C10_no_panic_witness :
    stabChainB modelFindTags (recompPoints [] [Op.add [104, 105, 10], Op.fin]) = true ∧
    (runTrace modelFindTags StreamWriter.new
      [Op.add [104, 105, 10], Op.fin]).isSome = true :=
  ⟨by decide, (C10_no_panic modelFindTags [Op.add [104, 105, 10], Op.fin] (by decide)).1⟩

/-- Witness for C1: the single-fragment split of `"# T\n"` satisfies the
stability chain, and the streamed output equals the batch output. -/
theorem C1_streaming_refines_batch_witness :
    (endsNL (List.flatten [[35, 32, 84, 10]]) = true ∧
      stabChainB modelFindTags (linePrefixes [] [[35, 32, 84, 10]] ++
        [List.flatten [[35, 32, 84, 10]]]) = true) ∧
    runStream modelFindTags [[35, 32, 84, 10]] =
      some (highlight_markdown modelFindTags (List.flatten [[35, 32, 84, 10]]),
        List.flatten [[35, 32, 84, 10]]) :=
  ⟨⟨by decide, by decide⟩,
    C1_streaming_refines_batch modelFindTags [[35, 32, 84, 10]]
      (by decide) (by decide)⟩
